import Mathlib

/-!
Shallow embedding of the gtx static site generator core
(`options.go`, `project.go`, `types.go`, `helper.go`, `main.go`).

Go strings are modelled as `List Char` (`Str`).  Go's `strings.Split`,
`strings.Index`, `strings.TrimSpace`, `strings.Join`, `filepath.Ext` and
friends are translated below from their documented semantics as used by the
source.  The filesystem touched by `project.go` is modelled at inode level
(`fsState`), so hard links and `os.Create` truncation are observable.
External `git` invocations are oracle parameters: each oracle returns the
raw output of one command, `none` standing for a non-zero exit.
-/

set_option maxHeartbeats 1000000
set_option maxRecDepth 100000

abbrev Str := List Char

/-- Model of `contains` from `helper.go`: linear scan for an equal element. -/
def contains : List Str → Str → Bool
  | [], _ => false
  | v :: s, n => if v = n then true else contains s n

/-- Worker for `dedupe` (`helper.go`); `seen` plays the role of the Go set. -/
def dedupeGo (seen : List Str) : List Str → List Str
  | [] => []
  | v :: r => if contains seen v then dedupeGo seen r else v :: dedupeGo (v :: seen) r

/-- Model of `dedupe` from `helper.go`: keep the first occurrence of each string. -/
def dedupe (input : List Str) : List Str := dedupeGo [] input

/-- Model of `strings.Index(s, sep)`: position of the first occurrence of `sep` in
`s`, `none` when absent (Go returns -1). -/
def findSeq (sep : Str) : Str → Option Nat
  | [] => if sep = [] then some 0 else none
  | c :: rest => if sep <+: (c :: rest) then some 0 else (findSeq sep rest).map (· + 1)

/-- Fueled worker for `strings.Split`; fuel `s.length + 1` always suffices
because each step consumes at least one character. -/
def splitAux (sep : Str) : Nat → Str → List Str
  | 0, s => [s]
  | fuel + 1, s =>
    match findSeq sep s with
    | none => [s]
    | some i => s.take i :: splitAux sep fuel (s.drop (i + sep.length))

/-- Model of `strings.Split(s, sep)` for non-empty `sep`: cut at every occurrence. -/
def splitGo (sep s : Str) : List Str := splitAux sep (s.length + 1) s

/-- Model of `strings.Join(parts, sep)`. -/
def joinSep (sep : Str) : List Str → Str
  | [] => []
  | [p] => p
  | p :: q :: ps => p ++ sep ++ joinSep sep (q :: ps)

/-- No non-trivial border: no proper non-empty prefix of `sep` is also a
suffix of `sep`.  The commit-field separator SEP has this property, which
is what makes splitting a join unambiguous. -/
def borderFree (sep : Str) : Prop :=
  ∀ k, k < sep.length → 0 < k → sep.take k ≠ sep.drop (sep.length - k)

/-- ASCII whitespace as trimmed by the `strings.TrimSpace` model. -/
def isWS (c : Char) : Bool := c == ' ' || c == '\t' || c == '\n' || c == '\r'

/-- Model of `strings.TrimSpace`. -/
def trimL (s : Str) : Str := ((s.dropWhile isWS).reverse.dropWhile isWS).reverse

/-- Model of `strings.TrimPrefix(s, "*")`. -/
def trimStar : Str → Str
  | '*' :: r => r
  | s => s

/-- File part of `filepath.Split`: everything after the last '/'. -/
def afterLastSlash (s : Str) : Str := (s.reverse.takeWhile (· != '/')).reverse

/-- Model of `filepath.Ext`: the suffix starting at the final dot of the final
slash-separated element; empty when that element has no dot. -/
def extOf (p : Str) : Str :=
  let base := afterLastSlash p
  let tail := base.reverse.takeWhile (· != '.')
  if tail.length = base.length then [] else '.' :: tail.reverse

/-- Model of `strings.TrimSuffix(s, "\n")`: drop one trailing newline if present. -/
def trimSuffixNL (s : Str) : Str :=
  if s.getLast? = some '\n' then s.dropLast else s

/-- SEP from `project.go`: the UUID used to separate commit log fields. -/
def SEPL : Str := ("6f6c1745-e902-474a-9e99-08d0084fb011").data

/-- Model of `author` from `types.go` (field order Email, Name as in the source). -/
structure author where
  Email : Str
  Name : Str
deriving DecidableEq

/-- Model of `overview` from `types.go`: one diff-stat summary against a parent. -/
structure overview where
  Body : Str
  Hash : Str
  Parent : Str
deriving DecidableEq

/-- Model of `object` from `types.go`: a file at a commit. -/
structure object where
  Hash : Str
  Path : Str
deriving DecidableEq

/-- Model of `object.Dir` from `types.go`:
`filepath.Join(o.Hash[0:2], o.Hash[2:])`.  Hashes are 40 hex characters,
so both slices are non-empty and the join inserts a single '/'. -/
def object.Dir (o : object) : Str := o.Hash.take 2 ++ '/' :: o.Hash.drop 2

/-- Model of `commit` from `types.go`.  `time.Time` is abstracted to `Nat`; the
`Types` field is omitted because `commitParser` never assigns it. -/
structure commit where
  Branch : Str
  Body : Str
  Abbr : Str
  History : List overview
  Parents : List Str
  Hash : Str
  Author : author
  Date : Nat
  Project : Str
  Tree : List object
  Subject : Str
deriving DecidableEq

/-- Model of `branch` from `types.go`.  Its Go zero value (`branch{}`) is
`branch.mk [] [] []`. -/
structure branch where
  Commits : List commit
  Name : Str
  Project : Str
deriving DecidableEq

/-- Results of the external commands and of `time.Parse` as consumed by
`commitParser` (`options.go` 141-177): `git diff --stat` via
`diffStatParser`, the fixed-layout date parse, `git show --format=%B` via
`bodyParser`, and `git ls-tree` via `treeParser`.  `none` models a
non-zero exit or a parse failure. -/
structure gitOracles where
  diffstat : Str → Str → Option Str
  dateParse : Str → Option Nat
  body : Str → Option Str
  tree : Str → Option (List object)

/-- Outcome of one iteration of the `commitParser` scanner loop:
`panics` models a Go index-out-of-range on `data[i]`, `drops` a
`continue`, `ok` an appended commit. -/
inductive lineRes where
  | panics
  | drops
  | ok (c : commit)
deriving DecidableEq

/-- The `data` fields of one commit log line (`options.go` 129-130):
trim the scanned line, then split on SEP. -/
def fieldsOf (line : Str) : List Str := splitGo SEPL (trimL line)

/-- The `parents` computation in `commitParser` (`options.go` 134-139):
split `data[1]` on single spaces unless it is empty. -/
def parentsOfGo (f1 : Str) : List Str := if f1 = [] then [] else splitGo [' '] f1

/-- One iteration of the `commitParser` scanner loop
(`options.go` 128-194).  The source reads `data[1]`, `data[4]`, `data[3]`
and `data[5]` before the date check, so fewer than 6 fields is an
index-out-of-range panic; `data[6]` and `data[2]` are only read when
building the commit literal, after the date, body and tree checks. -/
def parseCommitLine (g : gitOracles) (b name : Str) (line : Str) : lineRes :=
  let data := fieldsOf line
  if data.length < 6 then .panics else
  let h := data.getD 0 []
  let parents := parentsOfGo (data.getD 1 [])
  let history := parents.filterMap fun par =>
    (g.diffstat h par).map fun ds => overview.mk ds h par
  let a := author.mk (data.getD 4 []) (data.getD 3 [])
  match g.dateParse (data.getD 5 []) with
  | none => .drops
  | some date =>
    match g.body h with
    | none => .drops
    | some bd =>
      match g.tree h with
      | none => .drops
      | some tr =>
        if data.length < 7 then .panics else
        .ok (commit.mk b bd (data.getD 6 []) history parents h a date name tr
          (data.getD 2 []))

/-- Model of `commitParser` (`options.go` 112-201) over the scanned log lines
(the scanner yields one line per commit).  `none` models a
process-aborting panic; parse failures only drop their line. -/
def commitParser (g : gitOracles) (b name : Str) : List Str → Option (List commit)
  | [] => some []
  | l :: ls =>
    match parseCommitLine g b name l with
    | .panics => none
    | .drops => commitParser g b name ls
    | .ok c => (commitParser g b name ls).map (c :: ·)

/-- One line of `treeParser` (`options.go` 216-223): split on spaces and
read `w[0]` and `w[1]`; a line with fewer than two fields is an
index-out-of-range panic (`none`). -/
def treeParseLine (line : Str) : Option object :=
  let w := splitGo [' '] line
  if 2 ≤ w.length then some (object.mk (w.getD 0 []) (w.getD 1 [])) else none

/-- Model of `treeParser` (`options.go` 203-226) on the raw `git ls-tree -r`
output: trim one trailing newline, split on newlines, parse each line.
`none` models the `w[1]` panic anywhere in the feed. -/
def treeParser (out : Str) : Option (List object) :=
  let feed := splitGo ['\n'] (trimSuffixNL out)
  feed.foldr (fun line acc => (treeParseLine line).bind fun o => acc.map (o :: ·))
    (some [])

/-- Model of `strings.Contains(line, "Bin")`, git's binary marker in diff stats. -/
def containsBin (line : Str) : Bool := (findSeq ("Bin").data line).isSome

/-- Go map assignment `types[e] = v` on the shared extension map. -/
def tset : List (Str × Bool) → Str → Bool → List (Str × Bool)
  | [], e, v => [(e, v)]
  | (k, w) :: r, e, v => if k = e then (k, v) :: r else (k, w) :: tset r e v

/-- Go map read `types[e]` with the zero-value default `false`, exactly
what `writeObject` (`project.go` 304) uses to classify an object. -/
def tget : List (Str × Bool) → Str → Bool
  | [], _ => false
  | (k, w) :: r, e => if k = e then w else tget r e

/-- The extension a diff-stat line classifies, when the line contains a
`|` (`options.go` 243-246): `filepath.Ext` of the trimmed text before it. -/
def lineExt? (line : Str) : Option Str :=
  (findSeq ['|'] line).map fun i => extOf (trimL (line.take i))

/-- One `diffStatParser` line (`options.go` 241-251): when the line has a
`|`, record whether git flagged the file binary for its extension. -/
def diffStatLine (t : List (Str × Bool)) (line : Str) : List (Str × Bool) :=
  match lineExt? line with
  | none => t
  | some e => tset t e (containsBin line)

/-- Model of `diffStatParser` (`options.go` 228-254): returns the trimmed stat text
and the updated shared extension map (the Go code mutates the global
`types` in place). -/
def diffStatParser (t : List (Str × Bool)) (out : Str) : Str × List (Str × Bool) :=
  let feed := splitGo ['\n'] (trimSuffixNL out)
  (joinSep ['\n'] (feed.map trimL), feed.foldl diffStatLine t)

/-- One `git branch -a` line to a bare name (`options.go` 66-71):
trim a leading `*`, trim space, keep the text after the last '/'. -/
def branchName (t : Str) : Str := afterLastSlash (trimL (trimStar t))

/-- The key set of the scanner map `m` (`options.go` 61-71), in
first-insertion (discovery) order. -/
def keysOf (lines : List Str) : List Str := dedupe (lines.map branchName)

/-- Assoc-list read of the `b` map built by `branchFilter`. -/
def blook : List (Str × branch) → Str → Option branch
  | [], _ => none
  | (k, v) :: r, p => if k = p then some v else blook r p

/-- The `b[k] = branch{...}` build loop (`options.go` 89-100): `flags`
carries the `m` values after whitelist filtering, `oracle k` the result of
`commitParser` for branch `k` (`none` is the `continue` at line 96). -/
def buildB (oracle : Str → Option (List commit)) (name : Str) :
    List (Str × Bool) → List (Str × branch)
  | [] => []
  | (k, v) :: r =>
    if v then
      match oracle k with
      | some cs => (k, branch.mk cs k name) :: buildB oracle name r
      | none => buildB oracle name r
    else buildB oracle name r

/-- Model of `branchFilter` (`options.go` 49-110).  `lines` are the scanned
`git branch -a` output lines and `order` is the iteration order Go happens
to use for `range m` when filling the whitelist at lines 82-87: Go
randomises map iteration, so any permutation of `keysOf lines` is a legal
behaviour.  The two other `range m` loops (lines 79-81 and 89-100) write
and read the maps keyed by `k`, so their iteration order is immaterial and
they are modelled by key-indexed operations.  The final loop (lines
102-109) appends `b[v]` for every whitelist entry; a missing key yields
the Go zero value `branch{}`. -/
def branchFilter (lines : List Str) (whitelist : List Str)
    (oracle : Str → Option (List commit)) (name : Str) (order : List Str) :
    List branch :=
  let keys := keysOf lines
  let flags : List (Str × Bool) :=
    if whitelist = [] then keys.map fun k => (k, true)
    else keys.map fun k => (k, contains whitelist k)
  let wl := if whitelist = [] then order else whitelist
  let b := buildB oracle name flags
  wl.map fun v => (blook b v).getD (branch.mk [] [] [])

/-- Inode-level filesystem model for the object-store writes of
`project.go`: `files` maps paths to inode ids (hard links share an id),
`inodes` carries the contents.  `renders` logs the target of every HTML
template execution in `writeObject` and `blobWrites` the target of every
blob write in `writeObjectBlob`, so renders can be counted. -/
structure fsState where
  files : List (Str × Nat)
  inodes : List (Nat × Str)
  next : Nat
  renders : List Str
  blobWrites : List Str
deriving DecidableEq

def emptyFS : fsState := ⟨[], [], 0, [], []⟩

/-- Path table read. -/
def flook : List (Str × Nat) → Str → Option Nat
  | [], _ => none
  | (k, i) :: r, p => if k = p then some i else flook r p

/-- Inode table read. -/
def ilook : List (Nat × Str) → Nat → Option Str
  | [], _ => none
  | (k, c) :: r, i => if k = i then some c else ilook r i

/-- Inode table update (in place, preserving hard links to the inode). -/
def iset : List (Nat × Str) → Nat → Str → List (Nat × Str)
  | [], _, _ => []
  | (k, c) :: r, i, v => if k = i then (k, v) :: r else (k, c) :: iset r i v

/-- Model of `os.Stat(p)` success: the path exists. -/
def statX (fs : fsState) (p : Str) : Bool := (flook fs.files p).isSome

/-- Model of `os.Create(p)`: truncate the inode an existing path points to — also
through every hard link sharing it — or allocate a fresh empty inode. -/
def osCreate (fs : fsState) (p : Str) : fsState × Nat :=
  match flook fs.files p with
  | some i => ({ fs with inodes := iset fs.inodes i [] }, i)
  | none =>
    ({ fs with files := (p, fs.next) :: fs.files,
               inodes := (fs.next, []) :: fs.inodes,
               next := fs.next + 1 }, fs.next)

/-- Model of `f.Write` on the inode returned by `os.Create`. -/
def osWrite (fs : fsState) (i : Nat) (content : Str) : fsState :=
  { fs with inodes := iset fs.inodes i content }

/-- Model of `os.Link(dst, lnk)` as used in `writeObject` (`project.go` 359-365):
an existing destination is tolerated (`os.IsExist`), any other failure is
logged and only skips the link. -/
def osLink (fs : fsState) (dst lnk : Str) : fsState :=
  if statX fs lnk then fs
  else
    match flook fs.files dst with
    | some i => { fs with files := (lnk, i) :: fs.files }
    | none => fs

/-- Model of `writeObjectBlob` (`project.go` 245-278): skip when `dst` already
exists, else fetch `git cat-file blob` (oracle `catFile`) and write it. -/
def writeObjectBlob (catFile : Str → Option Str) (obj : object) (dst : Str)
    (fs : fsState) : fsState :=
  if statX fs dst then fs
  else
    match catFile obj.Hash with
    | none => fs
    | some out =>
      let fsi := osCreate fs dst
      { osWrite fsi.1 fsi.2 out with blobWrites := dst :: fsi.1.blobWrites }

/-- The line numbering of `writeObject` (`project.go` 321-331): one number
per newline, plus a trailing entry when the output does not end in a
newline (the Go code then appends `len(lines)`). -/
def linesOf (out : Str) : List Nat :=
  let n := out.count '\n'
  let lines := (List.range n).map (· + 1)
  if out ≠ [] ∧ out.getLast? ≠ some '\n' then lines ++ [lines.length] else lines

/-- The object page record `show` of `types.go` (renamed: `show` is a Lean
keyword) together with the page `Title` built at `project.go` 336-343. -/
structure showData where
  Title : Str
  Bin : Bool
  Body : Str
  Lines : List Nat
deriving DecidableEq

/-- Model of `writeObject` (`project.go` 280-366).  `tplExec` models
`template.Execute` (it is assumed to succeed: its failure path only skips
the link and is irrelevant to the dedup claims), `gitShow` models
`git show --no-notes`, `tys` the shared global `types` map.  The
existence check is on the commit-local link path `lnk`, not on `dst`. -/
def writeObject (tplExec : showData → Str) (gitShow : Str → Option Str)
    (tys : List (Str × Bool)) (dst : Str) (obj : object) (base : Str)
    (bName cAbbr projName : Str) (fs : fsState) : fsState :=
  let lnk := base ++ '/' :: (obj.Path ++ (".html").data)
  if statX fs lnk then fs
  else
    let fsi := osCreate fs dst
    let bin := tget tys (extOf obj.Path)
    let title := joinSep (": ").data [projName, bName, cAbbr, obj.Path]
    if bin then
      let content := tplExec (showData.mk title true [] [])
      let fs2 := { osWrite fsi.1 fsi.2 content with renders := dst :: fsi.1.renders }
      osLink fs2 dst lnk
    else
      match gitShow obj.Hash with
      | none => fsi.1
      | some out =>
        let content := tplExec (showData.mk title false out (linesOf out))
        let fs2 := { osWrite fsi.1 fsi.2 content with renders := dst :: fsi.1.renders }
        osLink fs2 dst lnk

/-- The per-tree-object body of `writePages` (`project.go` 118-131):
`dst := filepath.Join(p.base, "object", obj.Dir())`, blob write, then the
HTML object page at `dst + ".html"` linked into the commit directory. -/
def processObject (tplExec : showData → Str) (gitShow catFile : Str → Option Str)
    (tys : List (Str × Bool)) (root : Str) (bName cAbbr projName : Str)
    (cHash : Str) (obj : object) (fs : fsState) : fsState :=
  let base := root ++ ("/commit/").data ++ cHash
  let dst := root ++ ("/object/").data ++ obj.Dir
  let fs1 := writeObjectBlob catFile obj dst fs
  writeObject tplExec gitShow tys (dst ++ (".html").data) obj base bName cAbbr
    projName fs1

/-- Per-item control-flow outcome used by the error-handling model. -/
inductive outcome where
  | ok
  | skip
  | fatal
deriving DecidableEq

/-- Control flow of `writeBranchPage` (`project.go` 206-243):
`log.Fatalf` on a MkdirAll failure (line 211), log-and-return on a page
create failure (line 223) or a template failure (line 239). -/
def writeBranchPage (mkdirOk createOk tmplOk : Bool) : outcome :=
  if !mkdirOk then .fatal
  else if !createOk then .skip
  else if !tmplOk then .skip
  else .ok

/-- Control flow of `updateBranches` (`project.go` 78-93): a failed fetch
is logged and skipped with `continue`; nothing is fatal. -/
def updateBranches (fetchOk : Str → Bool) (bs : List Str) : List outcome :=
  bs.map fun b => if fetchOk b then .ok else .skip

/-- A unit of generation work, used by the completion-barrier model. -/
inductive workUnit where
  | branchPage (b : Str)
  | commitPage (h : Str)
  | diffPage (h par : Str)
  | objectRender (h : Str)
  | indexPage
deriving DecidableEq

/-- The work `writePages` performs synchronously for one commit
(`project.go` 101-134): one diff page per parent, one render per tree
object, then the commit page. -/
def commitUnits (c : commit) : List workUnit :=
  c.Parents.map (workUnit.diffPage c.Hash) ++
    c.Tree.map (fun o => workUnit.objectRender o.Hash) ++
      [workUnit.commitPage c.Hash]

/-- The units `writePages` dispatches asynchronously: one fire-and-forget
goroutine per branch page (`go p.writeBranchPage(b)`, `project.go` 99).
No `sync.WaitGroup` or channel joins them anywhere in the program. -/
def asyncUnits (bs : List branch) : List workUnit :=
  bs.map fun b => workUnit.branchPage b.Name

/-- The units run to completion on the main goroutine before the program
returns: the commit loops of `writePages` plus the main index written by
`main` (`part_005` 199-200). -/
def syncUnits (bs : List branch) : List workUnit :=
  (bs.flatMap fun b => b.Commits.flatMap commitUnits) ++ [workUnit.indexPage]

/-- Everything dispatched during one run. -/
def dispatchedUnits (bs : List branch) : List workUnit :=
  syncUnits bs ++ asyncUnits bs

/-- What has certainly finished when `main` returns, if the scheduler ran
exactly the goroutines in `sigma` to completion before the exit: the
synchronous work, plus whichever unawaited goroutines happened to finish. -/
def completedAtExit (bs : List branch) (sigma : List workUnit) : List workUnit :=
  syncUnits bs ++ sigma

/-- Concrete template stand-in for the dedup scenario: the page bytes
embed the title (the real template interpolates `.Title` too). -/
def c1Tpl : showData → Str := fun d => d.Title ++ '#' :: d.Body

/-- Concrete `git show` / `git cat-file` oracle for the dedup scenario. -/
def c1Out : Str → Option Str := fun _ => some (("hello\n").data)

/-- The tree object shared by two commits in the dedup scenario. -/
def c1Obj : object := object.mk (("aab0c1").data) (("f.txt").data)

/-- Store state after the first commit (`c100`) processed `c1Obj`. -/
def c1FsA : fsState :=
  writeObject c1Tpl c1Out [] (("out/object/aa/b0c1.html").data) c1Obj
    (("out/commit/c100").data) (("main").data) (("c1").data) (("P").data)
    (writeObjectBlob c1Out c1Obj (("out/object/aa/b0c1").data) emptyFS)

/-- Store state after the second commit (`c200`) processed `c1Obj` too. -/
def c1FsB : fsState :=
  writeObject c1Tpl c1Out [] (("out/object/aa/b0c1.html").data) c1Obj
    (("out/commit/c200").data) (("main").data) (("c2").data) (("P").data)
    (writeObjectBlob c1Out c1Obj (("out/object/aa/b0c1").data) c1FsA)

/-! ### Lemmas about the Go string helpers -/

theorem contains_iff {s : List Str} {n : Str} : contains s n = true ↔ n ∈ s := by
  induction s with
  | nil => simp [contains]
  | cons v r ih =>
    by_cases h : v = n
    · subst h; simp [contains]
    · simp [contains, h, ih, Ne.symm h]

theorem ne_nil_of_findSeq_none {sep s : Str} (h : findSeq sep s = none) :
    sep ≠ [] := by
  intro he
  subst he
  cases s <;> simp [findSeq] at h

theorem not_prefix_of_findSeq_none {sep s : Str} (h : findSeq sep s = none) :
    ¬ sep <+: s := by
  cases s with
  | nil =>
    intro hp
    have hsep : sep = [] := List.prefix_nil.mp hp
    exact ne_nil_of_findSeq_none h hsep
  | cons c rest =>
    intro hp
    simp [findSeq, hp] at h

theorem findSeq_tail_none {sep : Str} {c : Char} {rest : Str}
    (h : findSeq sep (c :: rest) = none) : findSeq sep rest = none := by
  by_cases hp : sep <+: (c :: rest)
  · simp [findSeq, hp] at h
  · simpa [findSeq, hp, Option.map_eq_none'] using h

theorem findSeq_join {sep : Str} (hbf : borderFree sep) :
    ∀ (a rest : Str), findSeq sep a = none →
      findSeq sep (a ++ sep ++ rest) = some a.length := by
  intro a
  induction a with
  | nil =>
    intro rest ha
    have hsep : sep ≠ [] := ne_nil_of_findSeq_none ha
    cases hs : sep with
    | nil => exact absurd hs hsep
    | cons x xs =>
      subst hs
      simp [findSeq, List.cons_prefix_cons, List.prefix_append]
  | cons c a' ih =>
    intro rest ha
    have hnp : ¬ sep <+: (c :: a') := not_prefix_of_findSeq_none ha
    have ha' : findSeq sep a' = none := findSeq_tail_none ha
    have hno : ¬ sep <+: ((c :: a') ++ (sep ++ rest)) := by
      intro hp
      have htake := List.prefix_iff_eq_take.mp hp
      rcases le_or_lt sep.length (c :: a').length with hle | hlt
      · have : sep <+: (c :: a') := by
          rw [htake, List.take_append_eq_append_take,
            Nat.sub_eq_zero_of_le hle, List.take_zero, List.append_nil]
          exact List.take_prefix _ _
        exact hnp this
      · have hLpos : 0 < (c :: a').length := by simp
        have hk0 : 0 < sep.length - (c :: a').length := Nat.sub_pos_of_lt hlt
        have hklen : sep.length - (c :: a').length ≤ sep.length := Nat.sub_le _ _
        have heq : sep = (c :: a') ++ sep.take (sep.length - (c :: a').length) := by
          conv_lhs => rw [htake]
          rw [List.take_append_eq_append_take,
            List.take_of_length_le (Nat.le_of_lt hlt),
            List.take_append_eq_append_take,
            Nat.sub_eq_zero_of_le hklen, List.take_zero, List.append_nil]
        have hdrop : sep.drop (sep.length - (sep.length - (c :: a').length)) =
            sep.take (sep.length - (c :: a').length) := by
          rw [Nat.sub_sub_self (Nat.le_of_lt hlt)]
          conv_lhs => rw [heq]
          exact List.drop_left _ _
        have hklt : sep.length - (c :: a').length < sep.length :=
          Nat.sub_lt (Nat.lt_of_le_of_lt (Nat.zero_le _) hlt) hLpos
        exact hbf _ hklt hk0 (hdrop.symm)
    have hstep : (c :: a') ++ sep ++ rest = c :: (a' ++ sep ++ rest) := by
      simp [List.append_assoc]
    rw [hstep]
    have hrec := ih rest ha'
    have hno' : ¬ sep <+: (c :: (a' ++ sep ++ rest)) := by
      intro hp
      apply hno
      have : (c :: a') ++ (sep ++ rest) = c :: (a' ++ sep ++ rest) := by
        simp [List.append_assoc]
      rw [this]
      exact hp
    show findSeq sep (c :: (a' ++ sep ++ rest)) = some (a'.length + 1)
    simp only [findSeq]
    rw [if_neg hno', hrec]
    rfl

theorem splitAux_of_none {sep s : Str} (h : findSeq sep s = none) :
    ∀ fuel, splitAux sep fuel s = [s]
  | 0 => rfl
  | fuel + 1 => by simp [splitAux, h]

theorem splitAux_ne_nil (sep : Str) : ∀ fuel s, splitAux sep fuel s ≠ [] := by
  intro fuel s
  cases fuel with
  | zero => simp [splitAux]
  | succ f =>
    simp only [splitAux]
    cases findSeq sep s <;> simp

theorem splitAux_join {sep : Str} (hbf : borderFree sep) :
    ∀ (parts : List Str) (fuel : Nat) (s : Str), parts ≠ [] →
      (∀ p ∈ parts, findSeq sep p = none) →
      s = joinSep sep parts → s.length < fuel → splitAux sep fuel s = parts := by
  intro parts
  induction parts with
  | nil => intro _ _ h; exact absurd rfl h
  | cons p ps ih =>
    intro fuel s _ hfree hs hlen
    cases ps with
    | nil =>
      have hsp : s = p := by simpa [joinSep] using hs
      rw [hsp]
      exact splitAux_of_none (hfree p (by simp)) fuel
    | cons q ps' =>
      have hp : findSeq sep p = none := hfree p (by simp)
      have hsep : sep ≠ [] := ne_nil_of_findSeq_none hp
      have hjoin : joinSep sep (p :: q :: ps') = p ++ sep ++ joinSep sep (q :: ps') :=
        rfl
      have hfs : findSeq sep s = some p.length := by
        rw [hs, hjoin]
        exact findSeq_join hbf p _ hp
      cases fuel with
      | zero => omega
      | succ f =>
        simp only [splitAux, hfs]
        have hslen : s.length =
            p.length + sep.length + (joinSep sep (q :: ps')).length := by
          rw [hs, hjoin]; simp [List.length_append]; omega
        have htake : s.take p.length = p := by
          rw [hs, hjoin, List.append_assoc]
          exact List.take_left _ _
        have hdrop : s.drop (p.length + sep.length) = joinSep sep (q :: ps') := by
          rw [hs, hjoin]
          have : (p ++ sep).length = p.length + sep.length := List.length_append _ _
          rw [← this]
          exact List.drop_left _ _
        rw [htake, hdrop]
        have hrest : (joinSep sep (q :: ps')).length < f := by
          have h1 : 0 < sep.length := List.length_pos.mpr hsep
          omega
        rw [ih f _ (by simp) (fun x hx => hfree x (by simp [hx])) rfl hrest]

/-- Splitting the separator-join of parts recovers the parts, whenever the
separator is border-free and occurs in none of them. -/
theorem splitGo_joinSep {sep : Str} (hbf : borderFree sep) (parts : List Str)
    (hne : parts ≠ []) (hfree : ∀ p ∈ parts, findSeq sep p = none) :
    splitGo sep (joinSep sep parts) = parts :=
  splitAux_join hbf parts _ _ hne hfree rfl (Nat.lt_succ_self _)

theorem splitGo_ne_nil (sep s : Str) : splitGo sep s ≠ [] :=
  splitAux_ne_nil sep _ s

/-- The SEP separator has no non-trivial border (its first and last
characters already differ), so field joins split back unambiguously. -/
theorem borderFree_SEPL : borderFree SEPL := by
  unfold borderFree
  decide

theorem borderFree_single (c : Char) : borderFree [c] := by
  intro k hk h0
  simp at hk
  omega

theorem findSeq_single_none {c : Char} : ∀ {s : Str}, findSeq [c] s = none ↔ c ∉ s := by
  intro s
  induction s with
  | nil => simp [findSeq]
  | cons d rest ih =>
    by_cases h : c = d
    · subst h
      simp [findSeq, List.cons_prefix_cons]
    · simp [findSeq, List.cons_prefix_cons, h, Option.map_eq_none', ih, Ne.symm h]

/-! ### Lemmas about the shared extension map -/

theorem tget_tset_self (t : List (Str × Bool)) (e : Str) (v : Bool) :
    tget (tset t e v) e = v := by
  induction t with
  | nil => simp [tset, tget]
  | cons kv r ih =>
    obtain ⟨k, w⟩ := kv
    by_cases h : k = e <;> simp [tset, tget, h, ih]

theorem tget_tset_ne (t : List (Str × Bool)) (e e' : Str) (v : Bool) (h : e' ≠ e) :
    tget (tset t e' v) e = tget t e := by
  induction t with
  | nil => simp [tset, tget, h]
  | cons kv r ih =>
    obtain ⟨k, w⟩ := kv
    by_cases hk : k = e'
    · subst hk
      simp [tset, tget, h]
    · by_cases hke : k = e
      · subst hke
        simp [tset, tget, hk]
      · simp [tset, tget, hk, hke, ih]

theorem tget_foldl_diffStat (e : Str) :
    ∀ (feed : List Str) (t : List (Str × Bool)),
      tget (feed.foldl diffStatLine t) e =
        match feed.reverse.find? (fun l => lineExt? l == some e) with
        | some l => containsBin l
        | none => tget t e := by
  intro feed
  induction feed with
  | nil => intro t; simp
  | cons l ls ih =>
    intro t
    simp only [List.foldl_cons, List.reverse_cons]
    rw [ih, List.find?_append]
    cases hfind : ls.reverse.find? (fun l => lineExt? l == some e) with
    | some l' => simp [Option.or]
    | none =>
      simp only [Option.or]
      by_cases hp : lineExt? l = some e
      · simp [List.find?, hp, diffStatLine, tget_tset_self]
      · cases hext : lineExt? l with
        | none => simp [List.find?, hext, diffStatLine]
        | some e' =>
          have hne : e' ≠ e := by
            intro he
            exact hp (by rw [hext, he])
          have hbe : (e' == e) = false := beq_eq_false_iff_ne.mpr hne
          simp [List.find?, hext, diffStatLine, hbe, tget_tset_ne _ _ _ _ hne]

/-! ### Lemmas about `dedupe` and the `branchFilter` maps -/

theorem mem_dedupeGo :
    ∀ (l seen : List Str) (x : Str),
      x ∈ dedupeGo seen l ↔ x ∈ l ∧ contains seen x = false := by
  intro l
  induction l with
  | nil => simp [dedupeGo]
  | cons v r ih =>
    intro seen x
    by_cases h : contains seen v = true
    · constructor
      · intro hx
        have := (ih seen x).mp (by simpa [dedupeGo, h] using hx)
        exact ⟨by simp [this.1], this.2⟩
      · rintro ⟨hx, hc⟩
        rcases List.mem_cons.mp hx with rfl | hx'
        · exact absurd h (by simp [hc])
        · simpa [dedupeGo, h] using (ih seen x).mpr ⟨hx', hc⟩
    · have h' : contains seen v = false := by
        cases hc : contains seen v
        · rfl
        · exact absurd hc h
      constructor
      · intro hx
        rcases List.mem_cons.mp (by simpa [dedupeGo, h'] using hx) with rfl | hx'
        · exact ⟨by simp, h'⟩
        · have := (ih (v :: seen) x).mp hx'
          have hcx : contains seen x = false := by
            have := this.2
            simp [contains] at this
            cases hcc : contains seen x
            · rfl
            · exact absurd hcc (by simp [this.2])
          exact ⟨by simp [this.1], hcx⟩
      · rintro ⟨hx, hc⟩
        rcases List.mem_cons.mp hx with rfl | hx'
        · simp [dedupeGo, h']
        · by_cases hv : x = v
          · subst hv; simp [dedupeGo, h']
          · have : contains (v :: seen) x = false := by simp [contains, Ne.symm hv, hc]
            simpa [dedupeGo, h'] using Or.inr ((ih (v :: seen) x).mpr ⟨hx', this⟩)

theorem nodup_dedupeGo : ∀ (l seen : List Str), (dedupeGo seen l).Nodup := by
  intro l
  induction l with
  | nil => intro seen; simp [dedupeGo]
  | cons v r ih =>
    intro seen
    by_cases h : contains seen v = true
    · simpa [dedupeGo, h] using ih seen
    · have h' : contains seen v = false := by
        cases hc : contains seen v
        · rfl
        · exact absurd hc h
      have hnotin : v ∉ dedupeGo (v :: seen) r := by
        intro hv
        have := (mem_dedupeGo r (v :: seen) v).mp hv
        simp [contains] at this
      simpa [dedupeGo, h'] using ⟨hnotin, ih (v :: seen)⟩

theorem nodup_keysOf (lines : List Str) : (keysOf lines).Nodup :=
  nodup_dedupeGo _ _

theorem blook_buildB (oracle : Str → Option (List commit)) (name : Str) :
    ∀ (keys : List Str) (f : Str → Bool) (v : Str), keys.Nodup →
      blook (buildB oracle name (keys.map fun k => (k, f k))) v =
        if v ∈ keys ∧ f v = true then (oracle v).map fun cs => branch.mk cs v name
        else none := by
  intro keys
  induction keys with
  | nil => intro f v _; simp [buildB, blook]
  | cons k r ih =>
    intro f v hnd
    have hnd' : r.Nodup := (List.nodup_cons.mp hnd).2
    have hknotr : k ∉ r := (List.nodup_cons.mp hnd).1
    simp only [List.map_cons, buildB]
    by_cases hf : f k = true
    · rw [if_pos hf]
      cases ho : oracle k with
      | some cs =>
        by_cases hv : k = v
        · subst hv
          simp [blook, ho, hf]
        · simp only [blook, if_neg hv]
          rw [ih f v hnd']
          by_cases hvr : v ∈ r
          · simp [hvr, Ne.symm hv]
          · simp [hvr, Ne.symm hv]
      | none =>
        rw [ih f v hnd']
        by_cases hv : k = v
        · subst hv
          simp [hknotr, ho, hf]
        · by_cases hvr : v ∈ r
          · simp [hvr, Ne.symm hv]
          · simp [hvr, Ne.symm hv]
    · have hf' : f k = false := by
        cases hc : f k
        · rfl
        · exact absurd hc hf
      rw [if_neg (by simp [hf'])]
      rw [ih f v hnd']
      by_cases hv : k = v
      · subst hv
        simp [hknotr, hf']
      · by_cases hvr : v ∈ r
        · simp [hvr, Ne.symm hv]
        · simp [hvr, Ne.symm hv]

/-! ### Claims C5 and C6 (commit log parsing) -/

theorem parseCommitLine_drops_of_date (g : gitOracles) (b name l : Str)
    (h6 : 6 ≤ (fieldsOf l).length)
    (hdate : g.dateParse ((fieldsOf l).getD 5 []) = none) :
    parseCommitLine g b name l = .drops := by
  simp only [parseCommitLine]
  rw [if_neg (by omega), hdate]

theorem commitParser_drop_middle (g : gitOracles) (b name : Str) (l : Str)
    (hl : parseCommitLine g b name l = .drops) :
    ∀ pre post : List Str,
      commitParser g b name (pre ++ l :: post) =
        commitParser g b name (pre ++ post) := by
  intro pre
  induction pre with
  | nil => intro post; simp [commitParser, hl]
  | cons p pre' ih =>
    intro post
    cases hp : parseCommitLine g b name p <;>
      simp [commitParser, hp, ih post]

theorem commitParser_map_ok (g : gitOracles) (b name : Str) (cs : Str → commit) :
    ∀ ls : List Str, (∀ x ∈ ls, parseCommitLine g b name x = .ok (cs x)) →
      commitParser g b name ls = some (ls.map cs) := by
  intro ls
  induction ls with
  | nil => intro _; rfl
  | cons l ls' ih =>
    intro h
    simp [commitParser, h l (by simp), ih fun x hx => h x (by simp [hx])]

/-- Claim C5: a commit log line is the SEP-join of the seven ordered
fields `%H %P %s %aN %aE %aD %h`; the parser recovers exactly those
fields, splits the parent field on the (single-space) whitespace git puts
between parent hashes, yields an empty parent list exactly for an empty
parent field, and builds the commit record from the fields in the
documented positions. -/
theorem C5_log_fields_confirmed (g : gitOracles) (b name : Str)
    (f0 f1 f2 f3 f4 f5 f6 : Str) (ps : List Str) (d : Nat) (bd : Str)
    (tr : List object)
    (hfree : ∀ f ∈ [f0, f1, f2, f3, f4, f5, f6], findSeq SEPL f = none)
    (htrim : trimL (joinSep SEPL [f0, f1, f2, f3, f4, f5, f6]) =
      joinSep SEPL [f0, f1, f2, f3, f4, f5, f6])
    (hps : f1 = joinSep [' '] ps)
    (htok : ∀ p ∈ ps, p ≠ [] ∧ findSeq [' '] p = none)
    (hdate : g.dateParse f5 = some d) (hbody : g.body f0 = some bd)
    (htree : g.tree f0 = some tr) :
    fieldsOf (joinSep SEPL [f0, f1, f2, f3, f4, f5, f6]) =
      [f0, f1, f2, f3, f4, f5, f6] ∧
    parentsOfGo f1 = ps ∧
    (parentsOfGo f1 = [] ↔ f1 = []) ∧
    parseCommitLine g b name (joinSep SEPL [f0, f1, f2, f3, f4, f5, f6]) =
      lineRes.ok (commit.mk b bd f6
        (ps.filterMap fun par => (g.diffstat f0 par).map fun ds =>
          overview.mk ds f0 par)
        ps f0 (author.mk f4 f3) d name tr f2) := by
  have hfields : fieldsOf (joinSep SEPL [f0, f1, f2, f3, f4, f5, f6]) =
      [f0, f1, f2, f3, f4, f5, f6] := by
    unfold fieldsOf
    rw [htrim]
    exact splitGo_joinSep borderFree_SEPL _ (by simp) hfree
  have hpar : parentsOfGo f1 = ps := by
    cases ps with
    | nil =>
      have h0 : f1 = [] := by simpa [joinSep] using hps
      simp [parentsOfGo, h0]
    | cons p ps' =>
      have hpne : p ≠ [] := (htok p (by simp)).1
      have hf1 : f1 ≠ [] := by
        rw [hps]
        cases ps' with
        | nil => simpa [joinSep] using hpne
        | cons q ps'' => simp [joinSep]
      rw [parentsOfGo, if_neg hf1, hps]
      exact splitGo_joinSep (borderFree_single ' ') _ (by simp)
        fun x hx => (htok x hx).2
  refine ⟨hfields, hpar, ⟨?_, ?_⟩, ?_⟩
  · intro h
    by_contra hne
    rw [parentsOfGo, if_neg hne] at h
    exact splitGo_ne_nil _ _ h
  · intro h
    rw [parentsOfGo, if_pos h]
  · simp only [parseCommitLine]
    rw [hfields]
    simp [hdate, hbody, htree, hpar]

/-- Witness for C5 on a concrete two-parent log line. -/
theorem C5_log_fields_witness :
    fieldsOf (joinSep SEPL [("deadbeef").data, ("p1 p2").data,
        ("subject").data, ("Ann").data, ("ann@example.org").data,
        ("Mon, 2 Jan 2006 15:04:05 -0700").data, ("de4dbee").data]) =
      [("deadbeef").data, ("p1 p2").data, ("subject").data, ("Ann").data,
        ("ann@example.org").data, ("Mon, 2 Jan 2006 15:04:05 -0700").data,
        ("de4dbee").data] ∧
    parentsOfGo (("p1 p2").data) = [("p1").data, ("p2").data] ∧
    (parentsOfGo (("p1 p2").data) = [] ↔ ("p1 p2").data = []) ∧
    parseCommitLine
      (gitOracles.mk (fun _ _ => some (("1 file changed").data))
        (fun s => if s = ("Mon, 2 Jan 2006 15:04:05 -0700").data
          then some 1136239445 else none)
        (fun _ => some (("full message").data))
        (fun _ => some [object.mk (("4b82").data) (("f.txt").data)]))
      (("main").data) (("P").data)
      (joinSep SEPL [("deadbeef").data, ("p1 p2").data, ("subject").data,
        ("Ann").data, ("ann@example.org").data,
        ("Mon, 2 Jan 2006 15:04:05 -0700").data, ("de4dbee").data]) =
      lineRes.ok (commit.mk (("main").data) (("full message").data)
        (("de4dbee").data)
        ([("p1").data, ("p2").data].filterMap fun par =>
          (some (("1 file changed").data)).map fun ds =>
            overview.mk ds (("deadbeef").data) par)
        [("p1").data, ("p2").data] (("deadbeef").data)
        (author.mk (("ann@example.org").data) (("Ann").data)) 1136239445
        (("P").data) [object.mk (("4b82").data) (("f.txt").data)]
        (("subject").data)) :=
  C5_log_fields_confirmed
    (gitOracles.mk (fun _ _ => some (("1 file changed").data))
      (fun s => if s = ("Mon, 2 Jan 2006 15:04:05 -0700").data
        then some 1136239445 else none)
      (fun _ => some (("full message").data))
      (fun _ => some [object.mk (("4b82").data) (("f.txt").data)]))
    (("main").data) (("P").data) (("deadbeef").data) (("p1 p2").data)
    (("subject").data) (("Ann").data) (("ann@example.org").data)
    (("Mon, 2 Jan 2006 15:04:05 -0700").data) (("de4dbee").data)
    [("p1").data, ("p2").data] 1136239445 (("full message").data)
    [object.mk (("4b82").data) (("f.txt").data)]
    (by decide) (by decide) (by decide) (by decide) (by decide) (by decide)
    (by decide)

/-- Claim C6: a commit whose author-date field fails the fixed-format
parse is dropped from the branch list by a `continue`; every sibling line
is still parsed and returned in order, and the parser reports no error
for the branch (it returns the sibling list, not `none`). -/
theorem C6_date_drop_confirmed (g : gitOracles) (b name : Str)
    (pre post : List Str) (l : Str) (cs : Str → commit)
    (h6 : 6 ≤ (fieldsOf l).length)
    (hdate : g.dateParse ((fieldsOf l).getD 5 []) = none)
    (hsib : ∀ x ∈ pre ++ post, parseCommitLine g b name x = .ok (cs x)) :
    parseCommitLine g b name l = .drops ∧
    commitParser g b name (pre ++ l :: post) = some ((pre ++ post).map cs) := by
  have hd := parseCommitLine_drops_of_date g b name l h6 hdate
  exact ⟨hd, by
    rw [commitParser_drop_middle g b name l hd pre post,
      commitParser_map_ok g b name cs _ hsib]⟩

/-- Witness for C6: a three-line branch log whose middle line carries an
unparseable date; the two sibling commits survive in order. -/
theorem C6_date_drop_witness :
    parseCommitLine
      (gitOracles.mk (fun _ _ => some (("st").data))
        (fun s => if s = ("good").data then some 7 else none)
        (fun _ => some (("body").data)) (fun _ => some []))
      (("main").data) (("P").data)
      (joinSep SEPL [("bbbb").data, ("").data, ("s").data, ("N").data,
        ("E").data, ("bad").data, ("bb").data]) = lineRes.drops ∧
    commitParser
      (gitOracles.mk (fun _ _ => some (("st").data))
        (fun s => if s = ("good").data then some 7 else none)
        (fun _ => some (("body").data)) (fun _ => some []))
      (("main").data) (("P").data)
      ([joinSep SEPL [("aaaa").data, ("").data, ("s").data, ("N").data,
          ("E").data, ("good").data, ("aa").data]] ++
        (joinSep SEPL [("bbbb").data, ("").data, ("s").data, ("N").data,
          ("E").data, ("bad").data, ("bb").data]) ::
        [joinSep SEPL [("aaaa").data, ("").data, ("s").data, ("N").data,
          ("E").data, ("good").data, ("aa").data]]) =
      some (([joinSep SEPL [("aaaa").data, ("").data, ("s").data, ("N").data,
          ("E").data, ("good").data, ("aa").data]] ++
        [joinSep SEPL [("aaaa").data, ("").data, ("s").data, ("N").data,
          ("E").data, ("good").data, ("aa").data]]).map fun _ =>
        commit.mk (("main").data) (("body").data) (("aa").data) [] []
          (("aaaa").data) (author.mk (("E").data) (("N").data)) 7
          (("P").data) [] (("s").data)) :=
  C6_date_drop_confirmed
    (gitOracles.mk (fun _ _ => some (("st").data))
      (fun s => if s = ("good").data then some 7 else none)
      (fun _ => some (("body").data)) (fun _ => some []))
    (("main").data) (("P").data)
    [joinSep SEPL [("aaaa").data, ("").data, ("s").data, ("N").data,
      ("E").data, ("good").data, ("aa").data]]
    [joinSep SEPL [("aaaa").data, ("").data, ("s").data, ("N").data,
      ("E").data, ("good").data, ("aa").data]]
    (joinSep SEPL [("bbbb").data, ("").data, ("s").data, ("N").data,
      ("E").data, ("bad").data, ("bb").data])
    (fun _ => commit.mk (("main").data) (("body").data) (("aa").data) [] []
      (("aaaa").data) (author.mk (("E").data) (("N").data)) 7
      (("P").data) [] (("s").data))
    (by decide) (by decide) (by decide)

/-! ### Claims C3 and C4 (branch resolver) -/

/-- Claim C3 counterexample: with whitelist `[main, nosuch]` against a
listing that discovers only `main` and `develop`, the resolver returns
**two** entries — the second being the Go zero-value placeholder
`branch{}` appended for the unknown name — instead of dropping it. -/
theorem C3_whitelist_counterexample :
    (branchFilter [("* main").data, ("  develop").data]
        [("main").data, ("nosuch").data] (fun _ => some []) (("P").data)
        []).length = 2 ∧
    branchFilter [("* main").data, ("  develop").data]
        [("main").data, ("nosuch").data] (fun _ => some []) (("P").data) [] ≠
      [branch.mk [] (("main").data) (("P").data)] := by
  decide

/-- Claim C3 as amended: with a non-empty whitelist the resolver returns
exactly one entry per whitelist element, in whitelist order; an element
that names a discovered branch whose log parse succeeded carries that
branch, and every other element yields the zero-value placeholder
`branch{}` rather than being dropped. -/
theorem C3_whitelist_amended (lines wl : List Str)
    (oracle : Str → Option (List commit)) (name : Str) (order : List Str)
    (hne : wl ≠ []) :
    branchFilter lines wl oracle name order =
      wl.map fun v =>
        (if v ∈ keysOf lines then (oracle v).map fun cs => branch.mk cs v name
         else none).getD (branch.mk [] [] []) := by
  simp only [branchFilter]
  rw [if_neg hne, if_neg hne]
  apply List.map_congr_left
  intro v hv
  rw [blook_buildB oracle name (keysOf lines) (fun k => contains wl k) v
    (nodup_keysOf lines)]
  have hcv : contains wl v = true := contains_iff.mpr hv
  by_cases hk : v ∈ keysOf lines
  · simp [hk, hcv]
  · simp [hk]

/-- Witness for C3's amended theorem at the counterexample's input. -/
theorem C3_whitelist_witness :
    branchFilter [("* main").data, ("  develop").data]
        [("main").data, ("nosuch").data] (fun _ => some []) (("P").data) [] =
      [("main").data, ("nosuch").data].map fun v =>
        (if v ∈ keysOf [("* main").data, ("  develop").data] then
          ((fun (_ : Str) => some ([] : List commit)) v).map fun cs =>
            branch.mk cs v (("P").data)
         else none).getD (branch.mk [] [] []) :=
  C3_whitelist_amended [("* main").data, ("  develop").data]
    [("main").data, ("nosuch").data] (fun _ => some []) (("P").data) []
    (by decide)

/-- Claim C4: the empty-whitelist branch order comes from `range m` over a
Go map, whose iteration order is randomised; the code's own comment
claims git-given order.  Formally: the iteration order
`[develop, main]` is a permutation of the discovered key set — hence a
legal Go behaviour — and under it the resolver's output order differs
from the discovery order. -/
theorem C4_discovery_order_bug :
    [("develop").data, ("main").data].Perm
        (keysOf [("* main").data, ("  develop").data]) ∧
    (branchFilter [("* main").data, ("  develop").data] []
        (fun _ => some []) (("P").data)
        [("develop").data, ("main").data]).map branch.Name =
      [("develop").data, ("main").data] ∧
    [("develop").data, ("main").data] ≠
      keysOf [("* main").data, ("  develop").data] := by
  refine ⟨?_, by decide, by decide⟩
  have : keysOf [("* main").data, ("  develop").data] =
      [("main").data, ("develop").data] := by decide
  rw [this]
  exact List.Perm.swap _ _ _

/-! ### Claim C2 (object-store path scheme) -/

/-- Claim C2 counterexample: for the concrete (empty-tree) content hash,
the filename component of `object.Dir` is the hash **without** its first
two characters, not the full hash as the claim states. -/
theorem C2_storage_path_counterexample :
    (splitGo ['/'] (object.mk (("4b825dc642cb6eb9a060e54bf8d69288fbee4904").data)
        (("t").data)).Dir).getLastD [] ≠
      ("4b825dc642cb6eb9a060e54bf8d69288fbee4904").data ∧
    (splitGo ['/'] (object.mk (("4b825dc642cb6eb9a060e54bf8d69288fbee4904").data)
        (("t").data)).Dir).getLastD [] =
      ("825dc642cb6eb9a060e54bf8d69288fbee4904").data := by
  decide

/-- Claim C2 as amended: `object.Dir` is the two-level scheme whose
subdirectory is the first two characters of the content hash and whose
filename is the **remainder** of the hash (characters 3..40); the two
components concatenate back to the full hash. -/
theorem C2_storage_path_amended (o : object) (hfree : findSeq ['/'] o.Hash = none)
    (hlen : 3 ≤ o.Hash.length) :
    splitGo ['/'] o.Dir = [o.Hash.take 2, o.Hash.drop 2] ∧
    (o.Hash.take 2).length = 2 ∧
    o.Hash.take 2 ++ o.Hash.drop 2 = o.Hash := by
  have hnot : '/' ∉ o.Hash := findSeq_single_none.mp hfree
  have hdir : o.Dir = joinSep ['/'] [o.Hash.take 2, o.Hash.drop 2] := by
    simp [object.Dir, joinSep]
  refine ⟨?_, ?_, List.take_append_drop _ _⟩
  · rw [hdir]
    refine splitGo_joinSep (borderFree_single '/') _ (by simp) ?_
    intro p hp
    rcases List.mem_cons.mp hp with rfl | hp'
    · exact findSeq_single_none.mpr fun hc => hnot (List.mem_of_mem_take hc)
    · rcases List.mem_cons.mp hp' with rfl | hnil
      · exact findSeq_single_none.mpr fun hc => hnot (List.mem_of_mem_drop hc)
      · simp at hnil
  · rw [List.length_take]
    omega

/-- Witness for C2's amended theorem at a concrete hash. -/
theorem C2_storage_path_witness :
    splitGo ['/'] (object.mk (("4b825dc642cb6eb9a060e54bf8d69288fbee4904").data)
        (("t").data)).Dir =
      [(("4b825dc642cb6eb9a060e54bf8d69288fbee4904").data).take 2,
        (("4b825dc642cb6eb9a060e54bf8d69288fbee4904").data).drop 2] ∧
    ((("4b825dc642cb6eb9a060e54bf8d69288fbee4904").data).take 2).length = 2 ∧
    (("4b825dc642cb6eb9a060e54bf8d69288fbee4904").data).take 2 ++
        (("4b825dc642cb6eb9a060e54bf8d69288fbee4904").data).drop 2 =
      ("4b825dc642cb6eb9a060e54bf8d69288fbee4904").data :=
  C2_storage_path_amended
    (object.mk (("4b825dc642cb6eb9a060e54bf8d69288fbee4904").data) (("t").data))
    (by decide) (by decide)

/-! ### Claim C10 (tree parser totality) -/

/-- Claim C10 counterexample: on the empty `git ls-tree` output (a commit
with an empty tree) and on any feed containing a spaceless line, the
parser hits `w[1]` out of bounds (modelled as `none`), so it is not total. -/
theorem C10_tree_parser_counterexample :
    treeParser (("").data) = none ∧
    treeParser (("4b82 f.txt\nnospace").data) = none := by
  decide

/-- Claim C10 as amended: `treeParser` succeeds exactly on feeds whose
every line splits into at least two space-separated fields, returning one
object per line with `Hash = w[0]` and `Path = w[1]` (the text between the
first and second space, not the rest of the line); a spaceless line —
including the one produced by empty output — panics. -/
theorem C10_tree_parser_amended (out : Str)
    (h : ∀ line ∈ splitGo ['\n'] (trimSuffixNL out),
      2 ≤ (splitGo [' '] line).length) :
    treeParser out =
      some ((splitGo ['\n'] (trimSuffixNL out)).map fun line =>
        object.mk ((splitGo [' '] line).getD 0 [])
          ((splitGo [' '] line).getD 1 [])) := by
  unfold treeParser
  generalize splitGo ['\n'] (trimSuffixNL out) = feed at h ⊢
  induction feed with
  | nil => simp
  | cons l ls ih =>
    have hl := h l (by simp)
    have ihh := ih fun x hx => h x (by simp [hx])
    simp only [] at ihh
    rw [List.foldr_cons, ihh]
    simp [treeParseLine, hl]

/-- Witness for C10's amended theorem on a concrete two-line listing. -/
theorem C10_tree_parser_witness :
    treeParser (("4b82 f.txt\nffff dir/g.txt").data) =
      some ((splitGo ['\n'] (trimSuffixNL (("4b82 f.txt\nffff dir/g.txt").data))).map
        fun line => object.mk ((splitGo [' '] line).getD 0 [])
          ((splitGo [' '] line).getD 1 [])) :=
  C10_tree_parser_amended (("4b82 f.txt\nffff dir/g.txt").data) (by decide)

/-! ### Claim C7 (binary-extension classification) -/

/-- Claim C7 counterexample: the map write `types[ext] = Contains(line, "Bin")`
overwrites, so a later non-binary diff-stat line for the same extension
resets the classification: after a `.png` line with the Bin marker and
then one without, an object with a `.png` path renders as non-binary. -/
theorem C7_binary_flag_counterexample :
    lineExt? ((" a.png | Bin 100 -> 200 bytes").data) = some ((".png").data) ∧
    containsBin ((" a.png | Bin 100 -> 200 bytes").data) = true ∧
    tget (diffStatParser [] ((" a.png | Bin 100 -> 200 bytes\n").data)).2
      ((".png").data) = true ∧
    tget (diffStatParser
        (diffStatParser [] ((" a.png | Bin 100 -> 200 bytes\n").data)).2
        ((" b.png | 2 +-\n").data)).2 ((".png").data) = false ∧
    tget (diffStatParser
        (diffStatParser [] ((" a.png | Bin 100 -> 200 bytes\n").data)).2
        ((" b.png | 2 +-\n").data)).2 (extOf (("img/x.png").data)) = false := by
  decide

/-- Claim C7 as amended: the classification an object render reads for an
extension equals the Bin-status of the **most recent** diff-stat line seen
for that extension (later lines overwrite earlier ones, in either
direction), and an extension never seen in any diff-stat defaults to not
binary. -/
theorem C7_binary_flag_amended :
    (∀ (t : List (Str × Bool)) (out e : Str),
      tget ((diffStatParser t out).2) e =
        match (splitGo ['\n'] (trimSuffixNL out)).reverse.find?
            (fun l => lineExt? l == some e) with
        | some l => containsBin l
        | none => tget t e) ∧
    (∀ e : Str, tget [] e = false) := by
  refine ⟨fun t out e => ?_, fun e => rfl⟩
  unfold diffStatParser
  exact tget_foldl_diffStat e _ t

/-! ### Claim C8 (error propagation policy) -/

/-- Claim C8 counterexample: a failure to create a branch's output
directory — a branch-scoped condition the claim says merely skips the
branch — runs `log.Fatalf` (`project.go` 211) and aborts the process. -/
theorem C8_propagation_counterexample :
    writeBranchPage false true true = outcome.fatal ∧
    writeBranchPage false true true ≠ outcome.skip := by
  decide

/-- Claim C8 as amended: branch fetch failures are per-branch skips and
never fatal (every branch still gets an outcome), and failures to create
or render a branch's page only skip that branch; but a failure to create
the branch's output directory is process-fatal. -/
theorem C8_propagation_amended :
    (∀ (fetchOk : Str → Bool) (bs : List Str),
      outcome.fatal ∉ updateBranches fetchOk bs ∧
        (updateBranches fetchOk bs).length = bs.length) ∧
    (∀ c t : Bool, writeBranchPage true c t ≠ outcome.fatal) ∧
    (∀ c t : Bool, writeBranchPage false c t = outcome.fatal) := by
  refine ⟨fun fetchOk bs => ⟨?_, by simp [updateBranches]⟩, by decide, by decide⟩
  simp only [updateBranches, List.mem_map]
  rintro ⟨b, _, hb⟩
  by_cases h : fetchOk b <;> simp [h] at hb

/-! ### Claim C1 (object-store render dedup) -/

/-- Claim C1 counterexample: `writeObject` checks the commit-local link,
not the store artifact, so processing the same content hash from a second
commit re-creates — truncates and rewrites — the already-rendered HTML
artifact: after `writePages` handles object `aab0c1` in commits `c100`
and `c200`, the artifact existed before the second write, was rendered
twice, and its bytes changed (the page title embeds the commit
abbreviation). -/
theorem C1_render_once_counterexample :
    statX (processObject (fun d => d.Title ++ '#' :: d.Body)
        (fun _ => some (("hello\n").data)) (fun _ => some (("hello\n").data))
        [] (("out").data) (("main").data) (("c1").data) (("P").data)
        (("c100").data) (object.mk (("aab0c1").data) (("f.txt").data))
        emptyFS)
      (("out/object/aa/b0c1.html").data) = true ∧
    (processObject (fun d => d.Title ++ '#' :: d.Body)
        (fun _ => some (("hello\n").data)) (fun _ => some (("hello\n").data))
        [] (("out").data) (("main").data) (("c2").data) (("P").data)
        (("c200").data) (object.mk (("aab0c1").data) (("f.txt").data))
        (processObject (fun d => d.Title ++ '#' :: d.Body)
          (fun _ => some (("hello\n").data)) (fun _ => some (("hello\n").data))
          [] (("out").data) (("main").data) (("c1").data) (("P").data)
          (("c100").data) (object.mk (("aab0c1").data) (("f.txt").data))
          emptyFS)).renders.count (("out/object/aa/b0c1.html").data) = 2 ∧
    (flook (processObject (fun d => d.Title ++ '#' :: d.Body)
        (fun _ => some (("hello\n").data)) (fun _ => some (("hello\n").data))
        [] (("out").data) (("main").data) (("c1").data) (("P").data)
        (("c100").data) (object.mk (("aab0c1").data) (("f.txt").data))
        emptyFS).files (("out/object/aa/b0c1.html").data)).bind
      (ilook (processObject (fun d => d.Title ++ '#' :: d.Body)
        (fun _ => some (("hello\n").data)) (fun _ => some (("hello\n").data))
        [] (("out").data) (("main").data) (("c1").data) (("P").data)
        (("c100").data) (object.mk (("aab0c1").data) (("f.txt").data))
        emptyFS).inodes) ≠
    (flook (processObject (fun d => d.Title ++ '#' :: d.Body)
        (fun _ => some (("hello\n").data)) (fun _ => some (("hello\n").data))
        [] (("out").data) (("main").data) (("c2").data) (("P").data)
        (("c200").data) (object.mk (("aab0c1").data) (("f.txt").data))
        (processObject (fun d => d.Title ++ '#' :: d.Body)
          (fun _ => some (("hello\n").data)) (fun _ => some (("hello\n").data))
          [] (("out").data) (("main").data) (("c1").data) (("P").data)
          (("c100").data) (object.mk (("aab0c1").data) (("f.txt").data))
          emptyFS)).files (("out/object/aa/b0c1.html").data)).bind
      (ilook (processObject (fun d => d.Title ++ '#' :: d.Body)
        (fun _ => some (("hello\n").data)) (fun _ => some (("hello\n").data))
        [] (("out").data) (("main").data) (("c2").data) (("P").data)
        (("c200").data) (object.mk (("aab0c1").data) (("f.txt").data))
        (processObject (fun d => d.Title ++ '#' :: d.Body)
          (fun _ => some (("hello\n").data)) (fun _ => some (("hello\n").data))
          [] (("out").data) (("main").data) (("c1").data) (("P").data)
          (("c100").data) (object.mk (("aab0c1").data) (("f.txt").data))
          emptyFS)).inodes) := by
  decide

/-- Claim C1 as amended: when the same content hash is processed from two
different commit directories, the **blob** artifact is written exactly
once (the second attempt detects existence and skips), and in the end all
three paths — the store artifact and both commit-local links — share one
inode; but the **HTML** artifact, whose existence check is on the
commit-local link, is rendered twice: the second commit truncates and
rewrites it even though it already existed. -/
theorem C1_store_dedup_amended (tplExec : showData → Str)
    (gitShow catFile : Str → Option Str) (tys : List (Str × Bool))
    (obj : object) (dstB dstH base1 base2 b1 b2 a1 a2 pn blob out : Str)
    (fsA fsB : fsState)
    (hcat : catFile obj.Hash = some blob)
    (hbin : tget tys (extOf obj.Path) = false)
    (hshow : gitShow obj.Hash = some out)
    (hBH : dstB ≠ dstH)
    (hB1 : dstB ≠ base1 ++ '/' :: (obj.Path ++ (".html").data))
    (hB2 : dstB ≠ base2 ++ '/' :: (obj.Path ++ (".html").data))
    (hH1 : dstH ≠ base1 ++ '/' :: (obj.Path ++ (".html").data))
    (hH2 : dstH ≠ base2 ++ '/' :: (obj.Path ++ (".html").data))
    (h12 : base1 ++ '/' :: (obj.Path ++ (".html").data) ≠
      base2 ++ '/' :: (obj.Path ++ (".html").data))
    (hA : fsA = writeObject tplExec gitShow tys dstH obj base1 b1 a1 pn
      (writeObjectBlob catFile obj dstB emptyFS))
    (hB : fsB = writeObject tplExec gitShow tys dstH obj base2 b2 a2 pn
      (writeObjectBlob catFile obj dstB fsA)) :
    writeObjectBlob catFile obj dstB fsA = fsA ∧
    statX fsA dstH = true ∧
    fsB.renders = [dstH, dstH] ∧
    fsB.blobWrites = [dstB] ∧
    flook fsB.files dstH = some 1 ∧
    flook fsB.files (base1 ++ '/' :: (obj.Path ++ (".html").data)) = some 1 ∧
    flook fsB.files (base2 ++ '/' :: (obj.Path ++ (".html").data)) = some 1 ∧
    ilook fsB.inodes 0 = some blob := by
  have e1 : writeObjectBlob catFile obj dstB emptyFS =
      fsState.mk [(dstB, 0)] [(0, blob)] 1 [] [dstB] := by
    simp [writeObjectBlob, statX, flook, emptyFS, hcat, osCreate, osWrite, iset]
  have e2 : fsA = fsState.mk
      [(base1 ++ '/' :: (obj.Path ++ (".html").data), 1), (dstH, 1), (dstB, 0)]
      [(1, tplExec (showData.mk (joinSep ((": ").data) [pn, b1, a1, obj.Path])
          false out (linesOf out))), (0, blob)]
      2 [dstH] [dstB] := by
    rw [hA, e1]
    simp [writeObject, statX, flook, osCreate, osWrite, osLink, iset, hshow,
      hbin, hB1, hH1, hBH, Ne.symm hB1, Ne.symm hH1, Ne.symm hBH]
  have e3 : writeObjectBlob catFile obj dstB fsA = fsA := by
    rw [e2]
    simp [writeObjectBlob, statX, flook, Ne.symm hB1, Ne.symm hBH]
  have e4 : fsB = fsState.mk
      [(base2 ++ '/' :: (obj.Path ++ (".html").data), 1),
        (base1 ++ '/' :: (obj.Path ++ (".html").data), 1), (dstH, 1), (dstB, 0)]
      [(1, tplExec (showData.mk (joinSep ((": ").data) [pn, b2, a2, obj.Path])
          false out (linesOf out))), (0, blob)]
      2 [dstH, dstH] [dstB] := by
    rw [hB, e3, e2]
    simp [writeObject, statX, flook, osCreate, osWrite, osLink, iset, hshow,
      hbin, h12, hH2, hB2, Ne.symm h12, Ne.symm hH2, Ne.symm hB2,
      Ne.symm hH1, Ne.symm hB1, hBH, Ne.symm hBH]
  refine ⟨e3, ?_, ?_, ?_, ?_, ?_, ?_, ?_⟩
  · rw [e2]; simp [statX, flook, Ne.symm hH1]
  · rw [e4]
  · rw [e4]
  · rw [e4]; simp [flook, Ne.symm hH2, Ne.symm hH1]
  · rw [e4]; simp [flook, Ne.symm h12, hH1, hBH]
  · rw [e4]; simp [flook, hH2, hBH, h12]
  · rw [e4]; simp [ilook]

/-- Witness for C1's amended theorem on the concrete two-commit scenario. -/
theorem C1_store_dedup_witness :
    writeObjectBlob c1Out c1Obj (("out/object/aa/b0c1").data) c1FsA = c1FsA ∧
    statX c1FsA (("out/object/aa/b0c1.html").data) = true ∧
    c1FsB.renders =
      [("out/object/aa/b0c1.html").data, ("out/object/aa/b0c1.html").data] ∧
    c1FsB.blobWrites = [("out/object/aa/b0c1").data] ∧
    flook c1FsB.files (("out/object/aa/b0c1.html").data) = some 1 ∧
    flook c1FsB.files
      (("out/commit/c100").data ++ '/' :: (c1Obj.Path ++ (".html").data)) =
      some 1 ∧
    flook c1FsB.files
      (("out/commit/c200").data ++ '/' :: (c1Obj.Path ++ (".html").data)) =
      some 1 ∧
    ilook c1FsB.inodes 0 = some (("hello\n").data) :=
  C1_store_dedup_amended c1Tpl c1Out c1Out [] c1Obj
    (("out/object/aa/b0c1").data) (("out/object/aa/b0c1.html").data)
    (("out/commit/c100").data) (("out/commit/c200").data)
    (("main").data) (("main").data) (("c1").data) (("c2").data) (("P").data)
    (("hello\n").data) (("hello\n").data) c1FsA c1FsB
    rfl rfl rfl (by decide) (by decide) (by decide) (by decide) (by decide)
    (by decide) rfl rfl

/-! ### Claim C9 (completion barrier) -/

/-- Claim C9 counterexample: the branch-page goroutines are never joined,
so there is a legal schedule (none of them ran before `main` returned)
under which a dispatched branch page is not finished at exit. -/
theorem C9_barrier_counterexample :
    ¬ (∀ sigma : List workUnit,
        sigma ⊆ asyncUnits [branch.mk [] (("main").data) (("P").data)] →
        ∀ u ∈ dispatchedUnits [branch.mk [] (("main").data) (("P").data)],
          u ∈ completedAtExit [branch.mk [] (("main").data) (("P").data)] sigma) := by
  intro h
  have h2 := h [] (List.nil_subset _) (workUnit.branchPage (("main").data))
    (by decide)
  revert h2
  decide

/-- Claim C9 as amended: commit pages, parent diffs, object renders and
the main index all run synchronously and are complete whenever the
process exits, and nothing completes that was not dispatched; but the
branch pages are the fire-and-forget goroutines, the only units that may
still be unfinished at exit because no barrier awaits them. -/
theorem C9_barrier_amended (bs : List branch) (sigma : List workUnit)
    (hsub : sigma ⊆ asyncUnits bs) :
    (∀ u ∈ dispatchedUnits bs,
      u ∈ completedAtExit bs sigma ∨ ∃ b, u = workUnit.branchPage b) ∧
    completedAtExit bs sigma ⊆ dispatchedUnits bs := by
  constructor
  · intro u hu
    rcases List.mem_append.mp hu with h | h
    · exact Or.inl (List.mem_append_left _ h)
    · right
      rcases List.mem_map.mp h with ⟨b, _, rfl⟩
      exact ⟨b.Name, rfl⟩
  · intro u hu
    rcases List.mem_append.mp hu with h | h
    · exact List.mem_append_left _ h
    · exact List.mem_append_right _ (hsub h)

/-- Witness for C9's amended theorem: a one-branch, one-commit run whose
only goroutine did finish before exit. -/
theorem C9_barrier_witness :
    (∀ u ∈ dispatchedUnits [branch.mk
        [commit.mk (("main").data) (("b").data) (("ab12").data) []
          [("p0").data] (("abcd").data) (author.mk (("e").data) (("n").data)) 0
          (("P").data) [object.mk (("ffff").data) (("f.txt").data)]
          (("s").data)]
        (("main").data) (("P").data)],
      u ∈ completedAtExit [branch.mk
        [commit.mk (("main").data) (("b").data) (("ab12").data) []
          [("p0").data] (("abcd").data) (author.mk (("e").data) (("n").data)) 0
          (("P").data) [object.mk (("ffff").data) (("f.txt").data)]
          (("s").data)]
        (("main").data) (("P").data)]
        (asyncUnits [branch.mk
          [commit.mk (("main").data) (("b").data) (("ab12").data) []
            [("p0").data] (("abcd").data) (author.mk (("e").data) (("n").data)) 0
            (("P").data) [object.mk (("ffff").data) (("f.txt").data)]
            (("s").data)]
          (("main").data) (("P").data)]) ∨
        ∃ b, u = workUnit.branchPage b) ∧
    completedAtExit [branch.mk
        [commit.mk (("main").data) (("b").data) (("ab12").data) []
          [("p0").data] (("abcd").data) (author.mk (("e").data) (("n").data)) 0
          (("P").data) [object.mk (("ffff").data) (("f.txt").data)]
          (("s").data)]
        (("main").data) (("P").data)]
      (asyncUnits [branch.mk
        [commit.mk (("main").data) (("b").data) (("ab12").data) []
          [("p0").data] (("abcd").data) (author.mk (("e").data) (("n").data)) 0
          (("P").data) [object.mk (("ffff").data) (("f.txt").data)]
          (("s").data)]
        (("main").data) (("P").data)]) ⊆
      dispatchedUnits [branch.mk
        [commit.mk (("main").data) (("b").data) (("ab12").data) []
          [("p0").data] (("abcd").data) (author.mk (("e").data) (("n").data)) 0
          (("P").data) [object.mk (("ffff").data) (("f.txt").data)]
          (("s").data)]
        (("main").data) (("P").data)] :=
  C9_barrier_amended _ _ (List.Subset.refl _)
